import Mathlib

/-!
Verification of the text-record codec shared by `src/Contacts.py` and
`src/Calendar.py` (class `Tools`, helpers `_unfold`, `_parse_dav`,
`_apply_edits`).  The helpers are textually identical in the two files
except for the terminator-tag selection inside `_apply_edits`, which is
modelled per module below.
-/

namespace DavTools

/-- Python `str.splitlines`, restricted to the line boundaries `\n`,
`\r\n` and `\r` (the additional Unicode boundaries Python recognises,
such as `\x0b` or `\x0c`, do not occur in the DAV record texts this
codec processes and are not modelled). -/
def pySplitlines : List Char → List (List Char)
  | [] => []
  | '\r' :: '\n' :: cs => [] :: pySplitlines cs
  | '\n' :: cs => [] :: pySplitlines cs
  | '\r' :: cs => [] :: pySplitlines cs
  | c :: cs =>
    match pySplitlines cs with
    | [] => [[c]]
    | l :: ls => (c :: l) :: ls

/-- `text.splitlines()` as a list of strings (the physical lines). -/
def physLines (text : String) : List String :=
  (pySplitlines text.data).map fun cs => String.mk cs

/-- `l.startswith(" ") or l.startswith("\t")`. -/
def isCont (l : String) : Bool :=
  l.data.head? = some ' ' || l.data.head? = some '\t'

/-- `l[1:]`. -/
def dropHead (l : String) : String := String.mk (l.data.drop 1)

/-- One iteration of the loop in `Tools._unfold`: a continuation line is
appended (without separator) to the last unfolded line when one exists,
any other line starts a new unfolded line. -/
def unfoldStep (unfolded : List String) (l : String) : List String :=
  if isCont l then
    match unfolded.getLast? with
    | none => unfolded
    | some last => unfolded.dropLast ++ [last ++ dropHead l]
  else unfolded ++ [l]

/-- The loop of `Tools._unfold` over already-split physical lines. -/
def unfoldLines (lines : List String) : List String :=
  lines.foldl unfoldStep []

/-- `Tools._unfold` (Contacts.py lines 53-59, Calendar.py lines 54-60). -/
def unfoldText (text : String) : List String :=
  unfoldLines (physLines text)

/-- `":" in l`. -/
def hasColonB (l : String) : Bool := l.data.contains ':'

/-- `l.split(":", 1)[0].split(";")[0]`: the text before the first `:`,
then the text before the first `;` of that. -/
def deriveKey (l : String) : String :=
  String.mk ((l.data.takeWhile (fun c => c ≠ ':')).takeWhile (fun c => c ≠ ';'))

/-- `l.split(":", 1)[1]`: the text after the first `:` (meaningful only
when the line contains a `:`). -/
def parseVal (l : String) : String :=
  String.mk ((l.data.dropWhile (fun c => c ≠ ':')).drop 1)

/-- A value stored in the dict built by `Tools._parse_dav`: a scalar
string on first occurrence of a field name, a list of strings once the
name has occurred more than once. -/
inductive JVal where
  | s (v : String)
  | l (vs : List String)
deriving DecidableEq, Repr

/-- Lookup in an insertion-ordered association list (Python dict read,
`data[k]` / `k in data`). -/
def lookupJ (k : String) : List (String × JVal) → Option JVal
  | [] => none
  | (k', y) :: rest => if k' = k then some y else lookupJ k rest

/-- In-place overwrite of an existing key (Python dict write to a
present key keeps the entry's position). -/
def updateJ (k : String) (x : JVal) : List (String × JVal) → List (String × JVal)
  | [] => []
  | (k', y) :: rest => if k' = k then (k', x) :: rest else (k', y) :: updateJ k x rest

/-- One iteration of the loop in `Tools._parse_dav`: lines without `:`
are skipped; otherwise the first occurrence of a key stores a scalar, a
second occurrence promotes to a two-element list, later occurrences
append. -/
def parseStep (data : List (String × JVal)) (l : String) : List (String × JVal) :=
  if hasColonB l then
    let k := deriveKey l
    let v := parseVal l
    match lookupJ k data with
    | none => data ++ [(k, JVal.s v)]
    | some (JVal.l us) => updateJ k (JVal.l (us ++ [v])) data
    | some (JVal.s u) => updateJ k (JVal.l [u, v]) data
  else data

/-- The dict built by `Tools._parse_dav` (Contacts.py lines 61-70,
Calendar.py lines 62-71); the Python function returns `json.dumps` of
this mapping, serialisation not being modelled here. -/
def parse_dav_data (text : String) : List (String × JVal) :=
  (unfoldText text).foldl parseStep []

/-- An update-set value: a single replacement string or a list of
replacement strings (the two shapes `_apply_edits` distinguishes with
`isinstance(v, list)`). -/
inductive VValue where
  | str (s : String)
  | lst (vs : List String)
deriving DecidableEq, Repr

/-- The new lines `_apply_edits` emits for one `(k, v)` update item. -/
def valueLines (k : String) (v : VValue) : List String :=
  match v with
  | VValue.lst vs => vs.map fun i => k ++ ":" ++ i
  | VValue.str s => [k ++ ":" ++ s]

/-- All new lines emitted for an update set, in its own order. -/
def updateLines (updates : List (String × VValue)) : List String :=
  updates.foldr (fun kv acc => valueLines kv.1 kv.2 ++ acc) []

/-- The first loop of `_apply_edits`: keep exactly the lines whose
derived field name is not a key of the update set. -/
def removeKeyed (ks : List String) (lines : List String) : List String :=
  lines.filter fun l => !(ks.contains (deriveKey l))

/-- Python `str.strip()` (whitespace characters as used here). -/
def pyStrip (l : String) : String :=
  String.mk (((l.data.dropWhile Char.isWhitespace).reverse.dropWhile Char.isWhitespace).reverse)

/-- The second loop of `_apply_edits` (with its `inserted` flag): the
update lines are inserted immediately before the first line whose
stripped text equals the terminator tag; if no line matches, they are
never inserted. -/
def insertBeforeEnd (tag : String) (upd : List String) : List String → List String
  | [] => []
  | l :: ls =>
    if pyStrip l = tag then upd ++ l :: ls
    else l :: insertBeforeEnd tag upd ls

/-- `"\n".join(lines)`. -/
def joinLines : List String → String
  | [] => ""
  | [l] => l
  | l :: ls => l ++ "\n" ++ joinLines ls

/-- Python substring containment `needle in hay`. -/
def hasSubstr (needle hay : String) : Bool :=
  decide (needle.data <:+: hay.data)

/-- The values of the `:`-containing lines of `ls` whose derived field
name is `k`, in source order (the occurrences `_parse_dav` accumulates
under key `k`). -/
def occVals (ls : List String) (k : String) : List String :=
  (ls.filter fun l => hasColonB l && (deriveKey l == k)).map parseVal

/-- The replacement strings carried by one update value. -/
def valueStrings : VValue → List String
  | VValue.str s => [s]
  | VValue.lst vs => vs

/-- One accumulation step of `_parse_dav` viewed on a single key:
absent becomes a scalar, a scalar becomes a two-element list, a list
appends. -/
def pushJ (o : Option JVal) (v : String) : Option JVal :=
  match o with
  | none => some (JVal.s v)
  | some (JVal.s u) => some (JVal.l [u, v])
  | some (JVal.l us) => some (JVal.l (us ++ [v]))

/-- A logical line that survives a rejoin/resplit round trip intact:
nonempty, free of line-break characters, and not a continuation line. -/
def goodLine (l : String) : Bool :=
  !l.data.isEmpty && (l.data.all fun c => c ≠ '\n' && c ≠ '\r') && !isCont l

/-- An update key whose emitted `key:value` line derives back to the
same field name: free of `:`, `;` and line breaks, and not starting
with a space or tab. -/
def goodKey (k : String) : Bool :=
  (k.data.all fun c => c ≠ ':' && c ≠ ';' && c ≠ '\n' && c ≠ '\r') && !isCont k

/-- An update value free of line-break characters. -/
def goodVal (v : VValue) : Bool :=
  (valueStrings v).all fun s => s.data.all fun c => c ≠ '\n' && c ≠ '\r'

/-- A well-formed update set (see `goodKey`, `goodVal`). -/
def goodUpdates (u : List (String × VValue)) : Bool :=
  u.all fun kv => goodKey kv.1 && goodVal kv.2

/-- A dynamically-typed value as produced by `json.loads`, used to model
the untyped `updates` argument of `_apply_edits`.  (Floating-point
numbers are not modelled; the claims here do not involve them.) -/
inductive PyVal where
  | str (s : String)
  | int (n : Int)
  | bool (b : Bool)
  | null
  | list (xs : List PyVal)
  | dict (kvs : List (String × PyVal))
deriving Repr

mutual

/-- Python `repr` of a JSON-shaped value.  String quoting is modelled
without escape sequences (no value exercised below contains a quote). -/
def pyRepr : PyVal → String
  | PyVal.str s => "\x27" ++ s ++ "\x27"
  | PyVal.int n => toString n
  | PyVal.bool b => if b then "True" else "False"
  | PyVal.null => "None"
  | PyVal.list xs => "[" ++ pyReprList xs ++ "]"
  | PyVal.dict kvs => "\x7b" ++ pyReprDict kvs ++ "\x7d"

def pyReprList : List PyVal → String
  | [] => ""
  | [x] => pyRepr x
  | x :: xs => pyRepr x ++ ", " ++ pyReprList xs

def pyReprDict : List (String × PyVal) → String
  | [] => ""
  | [(k, v)] => pyRepr (PyVal.str k) ++ ": " ++ pyRepr v
  | (k, v) :: kvs => pyRepr (PyVal.str k) ++ ": " ++ pyRepr v ++ ", " ++ pyReprDict kvs

end

/-- Python `str()` as applied by the f-string `f"{k}:{v}"`: identity on
strings, `repr`-like rendering of everything else (`str` and `repr`
agree on every non-string value). -/
def pyStr : PyVal → String
  | PyVal.str s => s
  | PyVal.int n => toString n
  | PyVal.bool b => if b then "True" else "False"
  | PyVal.null => "None"
  | v => pyRepr v

/-- The lines emitted by the insertion loop of `_apply_edits` for one
`(k, v)` item of a dynamically-typed update dict: `isinstance(v, list)`
emits one line per element, anything else a single line. -/
def pyValueLines (k : String) (v : PyVal) : List String :=
  match v with
  | PyVal.list xs => xs.map fun i => k ++ ":" ++ pyStr i
  | _ => [k ++ ":" ++ pyStr v]

def pyUpdateLines (kvs : List (String × PyVal)) : List String :=
  kvs.foldr (fun kv acc => pyValueLines kv.1 kv.2 ++ acc) []

/-- Embedding of a well-typed update value into the dynamic model. -/
def toPyVal : VValue → PyVal
  | VValue.str s => PyVal.str s
  | VValue.lst vs => PyVal.list (vs.map PyVal.str)

/-- The exception classes relevant to `_apply_edits`: the
`AttributeError` that `updates.keys()` raises on a non-dict argument,
and pydantic's `ValidationError` (which the function never raises). -/
inductive PyErr where
  | attributeError
  | validationError
deriving DecidableEq, Repr

end DavTools

namespace Contacts

open DavTools

/-- `Tools._apply_edits` of `src/Contacts.py` (lines 72-88): drop the
lines of updated fields, then insert the new field lines before the
first remaining line that strips to `END:VCARD`. -/
def apply_edits (original : String) (updates : List (String × VValue)) : String :=
  joinLines
    (insertBeforeEnd "END:VCARD" (updateLines updates)
      (removeKeyed (updates.map Prod.fst) (unfoldText original)))

/-- `Tools._apply_edits` of `src/Contacts.py` on a dynamically-typed
`updates` argument, as delivered by `json.loads`: `updates.keys()`
raises `AttributeError` when `updates` is not a dict (before any output
is built); otherwise values of any type are formatted with `str()` and
no validation is performed. -/
def apply_edits_py (original : String) (updates : PyVal) : Except PyErr String :=
  match updates with
  | PyVal.dict kvs =>
    Except.ok (joinLines
      (insertBeforeEnd "END:VCARD" (pyUpdateLines kvs)
        (removeKeyed (kvs.map Prod.fst) (unfoldText original))))
  | _ => Except.error PyErr.attributeError

end Contacts

namespace Calendar

open DavTools

/-- The terminator tag chosen by `Tools._apply_edits` of
`src/Calendar.py`: `END:VEVENT` when the raw original contains the
substring `BEGIN:VEVENT`, else `END:VTODO`. -/
def end_tag (original : String) : String :=
  if hasSubstr "BEGIN:VEVENT" original then "END:VEVENT" else "END:VTODO"

/-- `Tools._apply_edits` of `src/Calendar.py` (lines 73-90). -/
def apply_edits (original : String) (updates : List (String × VValue)) : String :=
  joinLines
    (insertBeforeEnd (end_tag original) (updateLines updates)
      (removeKeyed (updates.map Prod.fst) (unfoldText original)))

end Calendar

/-! ## Helper lemmas: line splitting, joining, unfolding -/

namespace DavTools

theorem pySplitlines_newline (cs : List Char) :
    pySplitlines ('\n' :: cs) = [] :: pySplitlines cs := rfl

theorem pySplitlines_cons (c : Char) (cs : List Char) (h1 : c ≠ '\n') (h2 : c ≠ '\r') :
    pySplitlines (c :: cs) =
      match pySplitlines cs with
      | [] => [[c]]
      | l :: ls => (c :: l) :: ls := by
  rw [pySplitlines.eq_def]
  split
  · simp_all
  · simp_all
  · simp_all
  · simp_all
  · rename_i c' cs' hne1 hne2 hne3 heq
    rw [List.cons.injEq] at heq
    rw [heq.1, heq.2]

/-- Splitting `line ++ '\n' :: rest` where `line` is break-free yields
`line` as the first segment. -/
theorem pySplitlines_line_append (l : List Char)
    (h : ∀ c ∈ l, c ≠ '\n' ∧ c ≠ '\r') (cs : List Char) :
    pySplitlines (l ++ '\n' :: cs) = l :: pySplitlines cs := by
  induction l with
  | nil => simp [pySplitlines_newline]
  | cons c l ih =>
    have hc := h c (List.mem_cons_self ..)
    rw [List.cons_append, pySplitlines_cons c _ hc.1 hc.2,
      ih fun x hx => h x (List.mem_cons_of_mem _ hx)]

/-- Splitting a single break-free line. -/
theorem pySplitlines_single (l : List Char) (h : ∀ c ∈ l, c ≠ '\n' ∧ c ≠ '\r') :
    pySplitlines l = if l = [] then [] else [l] := by
  induction l with
  | nil => rfl
  | cons c l ih =>
    have hc := h c (List.mem_cons_self ..)
    rw [pySplitlines_cons c _ hc.1 hc.2, ih fun x hx => h x (List.mem_cons_of_mem _ hx)]
    by_cases hl : l = []
    · subst hl; simp
    · simp [hl]

theorem pySplitlines_cr (cs : List Char) (h : ∀ cs', cs ≠ '\n' :: cs') :
    pySplitlines ('\r' :: cs) = [] :: pySplitlines cs := by
  rw [pySplitlines.eq_def]
  split
  · simp_all
  · simp_all [List.cons.injEq]
  · simp_all
  · simp_all [List.cons.injEq]
  · rename_i heq
    rw [List.cons.injEq] at heq
    exact absurd heq.1.symm (by assumption)

/-- Every segment produced by `pySplitlines` is free of line breaks. -/
theorem pySplitlines_mem (cs : List Char) :
    ∀ l ∈ pySplitlines cs, ∀ c ∈ l, c ≠ '\n' ∧ c ≠ '\r' := by
  induction cs using pySplitlines.induct with
  | case1 => simp [pySplitlines]
  | case2 cs ih =>
    intro l hl
    rw [show pySplitlines ('\r' :: '\n' :: cs) = [] :: pySplitlines cs from rfl] at hl
    rcases List.mem_cons.mp hl with h | h
    · simp [h]
    · exact ih l h
  | case3 cs ih =>
    intro l hl
    rw [pySplitlines_newline] at hl
    rcases List.mem_cons.mp hl with h | h
    · simp [h]
    · exact ih l h
  | case4 cs h1 ih =>
    intro l hl
    rw [pySplitlines_cr cs fun cs' hc => h1 cs' hc] at hl
    rcases List.mem_cons.mp hl with h | h
    · simp [h]
    · exact ih l h
  | case5 c cs h1 h2 h3 heq ih =>
    intro l hl
    rw [pySplitlines_cons c cs (fun hc => h2 hc) fun hc => h3 hc, heq] at hl
    rcases List.mem_cons.mp hl with h | h
    · subst h
      intro x hx2
      rcases List.mem_cons.mp hx2 with h | h
      · subst h; exact ⟨fun hc => h2 hc, fun hc => h3 hc⟩
      · simp at h
    · simp at h
  | case6 c cs h1 h2 h3 l0 ls0 heq ih =>
    intro l hl
    rw [pySplitlines_cons c cs (fun hc => h2 hc) fun hc => h3 hc, heq] at hl
    rcases List.mem_cons.mp hl with h | h
    · subst h
      intro x hx2
      rcases List.mem_cons.mp hx2 with h | h
      · subst h; exact ⟨fun hc => h2 hc, fun hc => h3 hc⟩
      · exact ih l0 (by rw [heq]; exact List.mem_cons_self ..) x h
    · exact ih l (by rw [heq]; exact List.mem_cons_of_mem _ h)

theorem physLines_mem (text : String) :
    ∀ l ∈ physLines text, ∀ c ∈ l.data, c ≠ '\n' ∧ c ≠ '\r' := by
  intro l hl
  simp only [physLines, List.mem_map] at hl
  obtain ⟨cs, hcs, rfl⟩ := hl
  exact pySplitlines_mem _ _ hcs

theorem joinLines_cons (l : String) (ls : List String) (h : ls ≠ []) :
    joinLines (l :: ls) = l ++ "\n" ++ joinLines ls := by
  cases ls with
  | nil => exact absurd rfl h
  | cons a as => rfl

theorem joinLines_data_cons (l : String) (ls : List String) (h : ls ≠ []) :
    (joinLines (l :: ls)).data = l.data ++ '\n' :: (joinLines ls).data := by
  rw [joinLines_cons _ _ h, String.data_append, String.data_append, List.append_assoc]
  rfl

/-- Re-splitting the join of nonempty break-free lines recovers them. -/
theorem physLines_joinLines (ls : List String)
    (h : ∀ l ∈ ls, l.data ≠ [] ∧ ∀ c ∈ l.data, c ≠ '\n' ∧ c ≠ '\r') :
    physLines (joinLines ls) = ls := by
  induction ls with
  | nil => rfl
  | cons l ls ih =>
    cases ls with
    | nil =>
      have hl := h l (by simp)
      simp only [physLines, joinLines]
      rw [pySplitlines_single l.data hl.2, if_neg hl.1]
      rfl
    | cons m ms =>
      have hl := h l (by simp)
      have hrest := fun x hx => h x (List.mem_cons_of_mem _ hx)
      simp only [physLines]
      rw [joinLines_data_cons l (m :: ms) (by simp),
        pySplitlines_line_append l.data hl.2, List.map_cons]
      have := ih hrest
      simp only [physLines] at this
      rw [this]

theorem unfoldStep_noncont (acc : List String) (l : String) (h : isCont l = false) :
    unfoldStep acc l = acc ++ [l] := by simp [unfoldStep, h]

theorem foldl_unfoldStep_noncont (ls : List String) (h : ∀ l ∈ ls, isCont l = false) :
    ∀ acc, ls.foldl unfoldStep acc = acc ++ ls := by
  induction ls with
  | nil => simp
  | cons l ls ih =>
    intro acc
    rw [List.foldl_cons, unfoldStep_noncont _ _ (h l (by simp)),
      ih fun x hx => h x (List.mem_cons_of_mem _ hx)]
    simp

theorem unfoldLines_all_noncont (ls : List String) (h : ∀ l ∈ ls, isCont l = false) :
    unfoldLines ls = ls := by
  simpa [unfoldLines] using foldl_unfoldStep_noncont ls h []

theorem goodLine_iff (l : String) :
    goodLine l = true ↔
      l.data ≠ [] ∧ (∀ c ∈ l.data, c ≠ '\n' ∧ c ≠ '\r') ∧ isCont l = false := by
  simp [goodLine, List.all_eq_true, List.isEmpty_iff, and_assoc]

/-- Unfolding the join of good lines is the identity. -/
theorem unfoldText_joinLines (ls : List String) (h : ∀ l ∈ ls, goodLine l = true) :
    unfoldText (joinLines ls) = ls := by
  have h1 : ∀ l ∈ ls, l.data ≠ [] ∧ ∀ c ∈ l.data, c ≠ '\n' ∧ c ≠ '\r' :=
    fun l hl => ⟨((goodLine_iff l).mp (h l hl)).1, ((goodLine_iff l).mp (h l hl)).2.1⟩
  rw [unfoldText, physLines_joinLines ls h1,
    unfoldLines_all_noncont ls fun l hl => ((goodLine_iff l).mp (h l hl)).2.2]

theorem insertBeforeEnd_nil_upd (tag : String) (ls : List String) :
    insertBeforeEnd tag [] ls = ls := by
  induction ls with
  | nil => rfl
  | cons l ls ih =>
    rw [insertBeforeEnd]
    by_cases h : pyStrip l = tag
    · simp [h]
    · simp [h, ih]

theorem insertBeforeEnd_no_match (tag : String) (upd ls : List String)
    (h : ∀ l ∈ ls, pyStrip l ≠ tag) :
    insertBeforeEnd tag upd ls = ls := by
  induction ls with
  | nil => rfl
  | cons l ls ih =>
    rw [insertBeforeEnd, if_neg (h l (by simp)),
      ih fun x hx => h x (List.mem_cons_of_mem _ hx)]

theorem insertBeforeEnd_first_match (tag : String) (upd A : List String) (e : String)
    (B : List String) (hA : ∀ l ∈ A, pyStrip l ≠ tag) (he : pyStrip e = tag) :
    insertBeforeEnd tag upd (A ++ e :: B) = A ++ upd ++ e :: B := by
  induction A with
  | nil => simp [insertBeforeEnd, he]
  | cons a A ih =>
    rw [List.cons_append, insertBeforeEnd, if_neg (hA a (by simp)),
      ih fun x hx => hA x (List.mem_cons_of_mem _ hx)]
    simp

theorem insertBeforeEnd_cases (tag : String) (upd ls : List String) :
    insertBeforeEnd tag upd ls = ls ∨
      ∃ A e B, ls = A ++ e :: B ∧ pyStrip e = tag ∧ (∀ l ∈ A, pyStrip l ≠ tag) ∧
        insertBeforeEnd tag upd ls = A ++ upd ++ e :: B := by
  induction ls with
  | nil => exact Or.inl rfl
  | cons l ls ih =>
    by_cases h : pyStrip l = tag
    · refine Or.inr ⟨[], l, ls, by simp, h, by simp, ?_⟩
      rw [insertBeforeEnd, if_pos h]
      simp
    · rcases ih with h2 | ⟨A, e, B, hsplit, he, hA, heq⟩
      · refine Or.inl ?_
        rw [insertBeforeEnd, if_neg h, h2]
      · refine Or.inr ⟨l :: A, e, B, by rw [hsplit, List.cons_append], he, ?_, ?_⟩
        · intro x hx
          rcases List.mem_cons.mp hx with h3 | h3
          · rw [h3]; exact h
          · exact hA x h3
        · rw [insertBeforeEnd, if_neg h, heq]
          simp

theorem removeKeyed_nil_keys (ls : List String) : removeKeyed [] ls = ls := by
  simp [removeKeyed]

theorem mem_removeKeyed (ks ls : List String) (x : String) :
    x ∈ removeKeyed ks ls ↔ x ∈ ls ∧ deriveKey x ∉ ks := by
  simp [removeKeyed, List.mem_filter]

theorem removeKeyed_eq_self (ks ls : List String) (h : ∀ x ∈ ls, deriveKey x ∉ ks) :
    removeKeyed ks ls = ls := by
  refine List.filter_eq_self.mpr fun x hx => ?_
  simpa using h x hx

theorem removeKeyed_eq_nil (ks ls : List String) (h : ∀ x ∈ ls, deriveKey x ∈ ks) :
    removeKeyed ks ls = [] := by
  refine List.filter_eq_nil_iff.mpr fun x hx => ?_
  simpa using h x hx

theorem removeKeyed_append (ks l1 l2 : List String) :
    removeKeyed ks (l1 ++ l2) = removeKeyed ks l1 ++ removeKeyed ks l2 := by
  simp [removeKeyed, List.filter_append]

theorem removeKeyed_idem (ks ls : List String) :
    removeKeyed ks (removeKeyed ks ls) = removeKeyed ks ls :=
  removeKeyed_eq_self ks _ fun x hx => ((mem_removeKeyed ks ls x).mp hx).2

theorem lookupJ_append_self (k : String) (x : JVal) (data : List (String × JVal))
    (h : lookupJ k data = none) :
    lookupJ k (data ++ [(k, x)]) = some x := by
  induction data with
  | nil => simp [lookupJ]
  | cons p rest ih =>
    obtain ⟨k', y⟩ := p
    rw [lookupJ] at h
    rw [List.cons_append, lookupJ]
    by_cases hk : k' = k
    · rw [if_pos hk] at h; exact absurd h (by simp)
    · rw [if_neg hk] at h ⊢
      exact ih h

theorem lookupJ_append_ne (k k2 : String) (x : JVal) (data : List (String × JVal))
    (h : k2 ≠ k) :
    lookupJ k (data ++ [(k2, x)]) = lookupJ k data := by
  induction data with
  | nil => simp [lookupJ, h]
  | cons p rest ih =>
    obtain ⟨k', y⟩ := p
    rw [List.cons_append, lookupJ, lookupJ]
    by_cases hk : k' = k
    · rw [if_pos hk, if_pos hk]
    · rw [if_neg hk, if_neg hk, ih]

theorem lookupJ_updateJ_self (k : String) (x : JVal) (data : List (String × JVal))
    (y : JVal) (h : lookupJ k data = some y) :
    lookupJ k (updateJ k x data) = some x := by
  induction data with
  | nil => simp [lookupJ] at h
  | cons p rest ih =>
    obtain ⟨k', z⟩ := p
    rw [lookupJ] at h
    rw [updateJ]
    by_cases hk : k' = k
    · rw [if_pos hk, lookupJ, if_pos hk]
    · rw [if_neg hk] at h
      rw [if_neg hk, lookupJ, if_neg hk]
      exact ih h

theorem lookupJ_updateJ_ne (k k2 : String) (x : JVal) (data : List (String × JVal))
    (h : k2 ≠ k) :
    lookupJ k (updateJ k2 x data) = lookupJ k data := by
  induction data with
  | nil => rfl
  | cons p rest ih =>
    obtain ⟨k', z⟩ := p
    rw [updateJ]
    by_cases hk : k' = k2
    · rw [if_pos hk, lookupJ, lookupJ,
        if_neg (show k' ≠ k by rw [hk]; exact h),
        if_neg (show k' ≠ k by rw [hk]; exact h)]
    · rw [if_neg hk, lookupJ, lookupJ]
      by_cases hk2 : k' = k
      · rw [if_pos hk2, if_pos hk2]
      · rw [if_neg hk2, if_neg hk2, ih]

/-- One `_parse_dav` step, viewed through lookup of a fixed key. -/
theorem lookupJ_parseStep (data : List (String × JVal)) (l : String) (k : String) :
    lookupJ k (parseStep data l)
      = if hasColonB l = true ∧ deriveKey l = k
        then pushJ (lookupJ k data) (parseVal l)
        else lookupJ k data := by
  by_cases hc : hasColonB l = true
  · by_cases hk : deriveKey l = k
    · subst hk
      rw [if_pos ⟨hc, rfl⟩]
      rcases hl : lookupJ (deriveKey l) data with - | ⟨u⟩ | ⟨us⟩
      · simp only [parseStep, hc, if_true, hl]
        rw [lookupJ_append_self _ _ _ hl]
        rfl
      · simp only [parseStep, hc, if_true, hl]
        rw [lookupJ_updateJ_self _ _ _ _ hl]
        rfl
      · simp only [parseStep, hc, if_true, hl]
        rw [lookupJ_updateJ_self _ _ _ _ hl]
        rfl
    · rw [if_neg fun hand => hk hand.2]
      rcases hl : lookupJ (deriveKey l) data with - | ⟨u⟩ | ⟨us⟩
      · simp only [parseStep, hc, if_true, hl]
        exact lookupJ_append_ne _ _ _ _ hk
      · simp only [parseStep, hc, if_true, hl]
        exact lookupJ_updateJ_ne _ _ _ _ hk
      · simp only [parseStep, hc, if_true, hl]
        exact lookupJ_updateJ_ne _ _ _ _ hk
  · rw [if_neg fun hand => hc hand.1]
    have hcf : hasColonB l = false := by
      cases hcb : hasColonB l
      · rfl
      · exact absurd hcb hc
    simp only [parseStep, hcf, Bool.false_eq_true, if_false]

theorem occVals_cons (l : String) (ls : List String) (k : String) :
    occVals (l :: ls) k
      = if hasColonB l = true ∧ deriveKey l = k
        then parseVal l :: occVals ls k
        else occVals ls k := by
  rw [occVals, occVals]
  by_cases hc : hasColonB l = true ∧ deriveKey l = k
  · rw [if_pos hc, List.filter_cons_of_pos (by simp [hc.1, hc.2]), List.map_cons]
  · rw [if_neg hc, List.filter_cons_of_neg]
    simp only [Bool.and_eq_true, beq_iff_eq]
    exact fun h2 => hc ⟨h2.1, h2.2⟩

theorem lookupJ_foldl_parseStep (ls : List String) :
    ∀ (data : List (String × JVal)) (k : String),
      lookupJ k (ls.foldl parseStep data) = (occVals ls k).foldl pushJ (lookupJ k data) := by
  induction ls with
  | nil => intro data k; rfl
  | cons l ls ih =>
    intro data k
    rw [List.foldl_cons, ih (parseStep data l) k, occVals_cons, lookupJ_parseStep]
    by_cases hc : hasColonB l = true ∧ deriveKey l = k
    · rw [if_pos hc, if_pos hc, List.foldl_cons]
    · rw [if_neg hc, if_neg hc]

theorem foldl_pushJ_list (vs : List String) :
    ∀ us, vs.foldl pushJ (some (JVal.l us)) = some (JVal.l (us ++ vs)) := by
  induction vs with
  | nil => simp
  | cons v vs ih =>
    intro us
    rw [List.foldl_cons, pushJ, ih (us ++ [v]), List.append_assoc, List.singleton_append]

theorem foldl_pushJ_none (vs : List String) :
    vs.foldl pushJ none
      = match vs with
        | [] => none
        | [v] => some (JVal.s v)
        | v1 :: v2 :: rest => some (JVal.l (v1 :: v2 :: rest)) := by
  match vs with
  | [] => rfl
  | [v] => rfl
  | v1 :: v2 :: rest =>
    rw [List.foldl_cons, List.foldl_cons, pushJ, pushJ, foldl_pushJ_list rest [v1, v2]]
    rfl

/-- Lookup in the decoded mapping, characterised by the ordered list of
occurrences of the key. -/
theorem lookupJ_parse_dav_data (text : String) (k : String) :
    lookupJ k (parse_dav_data text)
      = match occVals (unfoldText text) k with
        | [] => none
        | [v] => some (JVal.s v)
        | v1 :: v2 :: rest => some (JVal.l (v1 :: v2 :: rest)) := by
  rw [parse_dav_data, lookupJ_foldl_parseStep,
    show lookupJ k [] = none from rfl, foldl_pushJ_none]

theorem occVals_ne_nil_iff (ls : List String) (k : String) :
    occVals ls k ≠ [] ↔ k ∈ (ls.filter hasColonB).map deriveKey := by
  constructor
  · intro h
    rcases hx : ls.filter (fun l => hasColonB l && (deriveKey l == k)) with - | ⟨l, rest⟩
    · exact absurd (by rw [occVals, hx]; rfl) h
    · have hl : l ∈ ls.filter fun l => hasColonB l && (deriveKey l == k) := by
        rw [hx]; simp
      have hm := List.mem_filter.mp hl
      have hb := hm.2
      rw [Bool.and_eq_true, beq_iff_eq] at hb
      exact List.mem_map.mpr ⟨l, List.mem_filter.mpr ⟨hm.1, hb.1⟩, hb.2⟩
  · intro h
    obtain ⟨l, hl, rfl⟩ := List.mem_map.mp h
    have hm := List.mem_filter.mp hl
    intro hocc
    rw [occVals, List.map_eq_nil_iff, List.filter_eq_nil_iff] at hocc
    exact hocc l hm.1 (by simp [hm.2])

theorem takeWhile_append_stop (p : Char → Bool) (xs : List Char)
    (h : ∀ x ∈ xs, p x = true) (y : Char) (hy : p y = false) (ys : List Char) :
    List.takeWhile p (xs ++ y :: ys) = xs := by
  induction xs with
  | nil => simp [List.takeWhile_cons, hy]
  | cons a xs ih =>
    simp [List.takeWhile_cons, h a (by simp),
      ih fun x hx => h x (List.mem_cons_of_mem _ hx)]

theorem goodKey_iff (k : String) :
    goodKey k = true ↔
      (∀ c ∈ k.data, c ≠ ':' ∧ c ≠ ';' ∧ c ≠ '\n' ∧ c ≠ '\r') ∧ isCont k = false := by
  simp [goodKey, List.all_eq_true, and_assoc]

theorem emitted_data (k s : String) :
    (k ++ ":" ++ s).data = k.data ++ ':' :: s.data := by
  rw [String.data_append, String.data_append, List.append_assoc]
  rfl

/-- The emitted line `k:v` derives back to the key `k` when `k` is free
of `:` and `;`. -/
theorem deriveKey_emitted (k s : String)
    (hk : ∀ c ∈ k.data, c ≠ ':' ∧ c ≠ ';') :
    deriveKey (k ++ ":" ++ s) = k := by
  rw [deriveKey, emitted_data,
    takeWhile_append_stop _ k.data (fun x hx => by simp [(hk x hx).1]) ':' (by simp) s.data,
    List.takeWhile_eq_self_iff.mpr fun x hx => by simp [(hk x hx).2]]

theorem isCont_emitted (k s : String) (hk : isCont k = false) :
    isCont (k ++ ":" ++ s) = false := by
  rw [isCont, emitted_data]
  cases hkd : k.data with
  | nil => simp
  | cons a as =>
    rw [isCont, hkd] at hk
    simpa using hk

theorem goodLine_emitted (k s : String) (hk : goodKey k = true)
    (hs : ∀ c ∈ s.data, c ≠ '\n' ∧ c ≠ '\r') :
    goodLine (k ++ ":" ++ s) = true := by
  obtain ⟨hkc, hkcont⟩ := (goodKey_iff k).mp hk
  rw [goodLine_iff]
  refine ⟨?_, ?_, isCont_emitted k s hkcont⟩
  · rw [emitted_data]; simp
  · intro c hc
    rw [emitted_data] at hc
    rcases List.mem_append.mp hc with h | h
    · exact ⟨(hkc c h).2.2.1, (hkc c h).2.2.2⟩
    · rcases List.mem_cons.mp h with h | h
      · subst h; exact ⟨by decide, by decide⟩
      · exact hs c h

theorem updateLines_cons (kv : String × VValue) (u : List (String × VValue)) :
    updateLines (kv :: u) = valueLines kv.1 kv.2 ++ updateLines u := rfl

theorem mem_updateLines (u : List (String × VValue)) (x : String)
    (hx : x ∈ updateLines u) :
    ∃ k v s, (k, v) ∈ u ∧ s ∈ valueStrings v ∧ x = k ++ ":" ++ s := by
  induction u with
  | nil => simp [updateLines] at hx
  | cons kv u ih =>
    rw [updateLines_cons] at hx
    rcases List.mem_append.mp hx with h | h
    · obtain ⟨k, v⟩ := kv
      cases v with
      | str s =>
        have hxs : x = k ++ ":" ++ s := by simpa [valueLines] using h
        exact ⟨k, VValue.str s, s, by simp, by simp [valueStrings], hxs⟩
      | lst vs =>
        rw [valueLines] at h
        obtain ⟨s, hs, rfl⟩ := List.mem_map.mp h
        exact ⟨k, VValue.lst vs, s, by simp, by simp [valueStrings, hs], rfl⟩
    · obtain ⟨k, v, s, h1, h2, h3⟩ := ih h
      exact ⟨k, v, s, List.mem_cons_of_mem _ h1, h2, h3⟩

/-- Under a well-formed update set, every emitted update line is a good
line and derives back to one of the update keys. -/
theorem updateLines_good (u : List (String × VValue)) (hU : goodUpdates u = true) :
    ∀ x ∈ updateLines u, goodLine x = true ∧ deriveKey x ∈ u.map Prod.fst := by
  intro x hx
  obtain ⟨k, v, s, hmem, hsv, rfl⟩ := mem_updateLines u x hx
  have hkv := List.all_eq_true.mp hU _ hmem
  rw [Bool.and_eq_true] at hkv
  have hs : ∀ c ∈ s.data, c ≠ '\n' ∧ c ≠ '\r' := by
    have h1 := List.all_eq_true.mp hkv.2 s hsv
    intro c hc
    have h2 := List.all_eq_true.mp h1 c hc
    simpa using h2
  refine ⟨goodLine_emitted k s hkv.1 hs, ?_⟩
  rw [deriveKey_emitted k s fun c hc =>
    ⟨(((goodKey_iff k).mp hkv.1).1 c hc).1, (((goodKey_iff k).mp hkv.1).1 c hc).2.1⟩]
  exact List.mem_map.mpr ⟨(k, v), hmem, rfl⟩

/-- Re-unfolding and re-filtering the output of one patch application
recovers the filtered line list, given good lines and a well-formed
update set. -/
theorem refilter (tag : String) (u : List (String × VValue)) (F : List String)
    (hF : ∀ l ∈ F, goodLine l = true)
    (hFkeep : ∀ l ∈ F, deriveKey l ∉ u.map Prod.fst)
    (hU : goodUpdates u = true) :
    removeKeyed (u.map Prod.fst)
      (unfoldText (joinLines (insertBeforeEnd tag (updateLines u) F))) = F := by
  rcases insertBeforeEnd_cases tag (updateLines u) F with h | ⟨A, e, B, hsplit, he, hA, heq⟩
  · rw [h, unfoldText_joinLines F hF, removeKeyed_eq_self _ _ hFkeep]
  · have hmemF : ∀ l ∈ A ++ e :: B, l ∈ F := fun l hl => hsplit ▸ hl
    rw [heq, unfoldText_joinLines _ ?_, removeKeyed_append, removeKeyed_append]
    · rw [removeKeyed_eq_self _ A fun x hx =>
          hFkeep x (hmemF x (List.mem_append.mpr (Or.inl hx))),
        removeKeyed_eq_nil _ (updateLines u) fun x hx => (updateLines_good u hU x hx).2,
        removeKeyed_eq_self _ (e :: B) fun x hx =>
          hFkeep x (hmemF x (List.mem_append.mpr (Or.inr hx))),
        List.append_nil, ← hsplit]
    · intro l hl
      rcases List.mem_append.mp hl with h1 | h1
      · rcases List.mem_append.mp h1 with h2 | h2
        · exact hF l (hmemF l (List.mem_append.mpr (Or.inl h2)))
        · exact (updateLines_good u hU l h2).1
      · exact hF l (hmemF l (List.mem_append.mpr (Or.inr h1)))

/-- One patch application with the terminator tag fixed is idempotent
on good input. -/
theorem apply_tag_idem (tag : String) (orig : String) (u : List (String × VValue))
    (hL : ∀ l ∈ unfoldText orig, goodLine l = true) (hU : goodUpdates u = true) :
    joinLines (insertBeforeEnd tag (updateLines u) (removeKeyed (u.map Prod.fst)
      (unfoldText (joinLines (insertBeforeEnd tag (updateLines u)
        (removeKeyed (u.map Prod.fst) (unfoldText orig)))))))
    = joinLines (insertBeforeEnd tag (updateLines u)
        (removeKeyed (u.map Prod.fst) (unfoldText orig))) := by
  rw [refilter tag u (removeKeyed (u.map Prod.fst) (unfoldText orig))
    (fun l hl => hL l ((mem_removeKeyed _ _ l).mp hl).1)
    (fun l hl => ((mem_removeKeyed _ _ l).mp hl).2) hU]

end DavTools

/-! ## Claim theorems (concrete computations) -/

/-- C9: patching `BEGIN:VCARD\nVERSION:3.0\nUID:u1\nFN:Alice\nEND:VCARD`
with `{"FN": "Alicia"}` yields exactly
`BEGIN:VCARD\nVERSION:3.0\nUID:u1\nFN:Alicia\nEND:VCARD` — the replaced
FN field reappears with its new value before the END:VCARD line. -/
theorem c9_patch_contact_scenario :
    Contacts.apply_edits "BEGIN:VCARD\nVERSION:3.0\nUID:u1\nFN:Alice\nEND:VCARD"
      [("FN", DavTools.VValue.str "Alicia")]
      = "BEGIN:VCARD\nVERSION:3.0\nUID:u1\nFN:Alicia\nEND:VCARD" := by decide

/-- C1 counterexample: the decoder performs no `.`-split, so the line
`item1.ADR;TYPE=HOME:value` is filed under `item1.ADR`, not under the
bare name `ADR` as the claim states. -/
theorem c1_counterexample :
    DavTools.lookupJ "ADR" (DavTools.parse_dav_data "item1.ADR;TYPE=HOME:value") = none
    ∧ DavTools.lookupJ "item1.ADR" (DavTools.parse_dav_data "item1.ADR;TYPE=HOME:value")
        = some (DavTools.JVal.s "value") := by decide

/-- C2 counterexample: the patcher never pops the last copied line; on a
record whose last line starts with `END:` but is not the hardcoded tag
(`END:VCALENDAR` here, with the contacts patcher's tag being
`END:VCARD`), the update `Y:2` is not appended before that line — it is
dropped — contradicting the claimed behavior. -/
theorem c2_counterexample :
    Contacts.apply_edits "BEGIN:VCALENDAR\nX:1\nEND:VCALENDAR"
        [("Y", DavTools.VValue.str "2")]
      = "BEGIN:VCALENDAR\nX:1\nEND:VCALENDAR"
    ∧ "BEGIN:VCALENDAR\nX:1\nEND:VCALENDAR"
      ≠ "BEGIN:VCALENDAR\nX:1\nY:2\nEND:VCALENDAR" := by decide

/-- C3 counterexample: an update set that is not a map of string to
string/list-of-string does not fail with `ValidationError`: a dict with
an integer value succeeds (the value is formatted with `str()`), and a
non-dict raises `AttributeError`, a different exception. -/
theorem c3_counterexample :
    Contacts.apply_edits_py "BEGIN:VCARD\nUID:u1\nEND:VCARD"
        (DavTools.PyVal.dict [("FN", DavTools.PyVal.int 5)])
      = Except.ok "BEGIN:VCARD\nUID:u1\nFN:5\nEND:VCARD"
    ∧ Contacts.apply_edits_py "BEGIN:VCARD\nUID:u1\nEND:VCARD" (DavTools.PyVal.list [])
      = Except.error DavTools.PyErr.attributeError
    ∧ DavTools.PyErr.attributeError ≠ DavTools.PyErr.validationError :=
  ⟨rfl, rfl, by decide⟩

/-- C5 counterexample: with the update key `A;B` (whose emitted line
`A;B:1` derives back to field name `A`, not `A;B`), a second application
of the same update set duplicates the inserted line, so the patch
operation is not idempotent. -/
theorem c5_counterexample :
    Contacts.apply_edits
        (Contacts.apply_edits "BEGIN:VCARD\nFN:Alice\nEND:VCARD"
          [("A;B", DavTools.VValue.str "1")])
        [("A;B", DavTools.VValue.str "1")]
      ≠ Contacts.apply_edits "BEGIN:VCARD\nFN:Alice\nEND:VCARD"
          [("A;B", DavTools.VValue.str "1")] := by decide

/-- C4: patching with an empty update set returns the unfolded form of
the input — its logical lines joined with `\n` — for both the contacts
and the calendar patcher. -/
theorem c4_empty_update_roundtrip (text : String) :
    Contacts.apply_edits text [] = DavTools.joinLines (DavTools.unfoldText text)
    ∧ Calendar.apply_edits text [] = DavTools.joinLines (DavTools.unfoldText text) := by
  constructor
  · rw [Contacts.apply_edits, List.map_nil, DavTools.removeKeyed_nil_keys,
      show DavTools.updateLines [] = [] from rfl, DavTools.insertBeforeEnd_nil_upd]
  · rw [Calendar.apply_edits, List.map_nil, DavTools.removeKeyed_nil_keys,
      show DavTools.updateLines [] = [] from rfl, DavTools.insertBeforeEnd_nil_upd]

/-- C6: the patch output decomposes as the untouched lines (the logical
lines whose derived field name is not an update key), in their original
order, with the new update lines inserted at a single point (or not at
all); no untouched line is removed or reordered. -/
theorem c6_untouched_lines_preserved (orig : String) (u : List (String × DavTools.VValue)) :
    (∃ A B, DavTools.removeKeyed (u.map Prod.fst) (DavTools.unfoldText orig) = A ++ B ∧
      (Contacts.apply_edits orig u = DavTools.joinLines (A ++ DavTools.updateLines u ++ B)
        ∨ Contacts.apply_edits orig u = DavTools.joinLines (A ++ B)))
    ∧ (∃ A B, DavTools.removeKeyed (u.map Prod.fst) (DavTools.unfoldText orig) = A ++ B ∧
      (Calendar.apply_edits orig u = DavTools.joinLines (A ++ DavTools.updateLines u ++ B)
        ∨ Calendar.apply_edits orig u = DavTools.joinLines (A ++ B))) := by
  constructor
  · rcases DavTools.insertBeforeEnd_cases "END:VCARD" (DavTools.updateLines u)
      (DavTools.removeKeyed (u.map Prod.fst) (DavTools.unfoldText orig)) with h | ⟨A, e, B, hsplit, _, _, heq⟩
    · exact ⟨[], DavTools.removeKeyed (u.map Prod.fst) (DavTools.unfoldText orig), rfl,
        Or.inr (by rw [Contacts.apply_edits, h]; rfl)⟩
    · exact ⟨A, e :: B, hsplit, Or.inl (by rw [Contacts.apply_edits, heq])⟩
  · rcases DavTools.insertBeforeEnd_cases (Calendar.end_tag orig) (DavTools.updateLines u)
      (DavTools.removeKeyed (u.map Prod.fst) (DavTools.unfoldText orig)) with h | ⟨A, e, B, hsplit, _, _, heq⟩
    · exact ⟨[], DavTools.removeKeyed (u.map Prod.fst) (DavTools.unfoldText orig), rfl,
        Or.inr (by rw [Calendar.apply_edits, h]; rfl)⟩
    · exact ⟨A, e :: B, hsplit, Or.inl (by rw [Calendar.apply_edits, heq])⟩

/-- C2 (amended): the patcher does not pop the last copied line; it
selects a hardcoded terminator tag (`END:VCARD` for contacts;
`END:VEVENT` when the raw original contains `BEGIN:VEVENT`, else
`END:VTODO`, for calendar) and appends the new field lines immediately
before the first remaining line whose stripped text equals that tag,
with the terminating line and the rest of the record following. -/
theorem c2_amended_insert_before_fixed_tag (orig : String)
    (u : List (String × DavTools.VValue)) (A : List String) (e : String) (B : List String) :
    (DavTools.removeKeyed (u.map Prod.fst) (DavTools.unfoldText orig) = A ++ e :: B →
      (∀ l ∈ A, DavTools.pyStrip l ≠ "END:VCARD") → DavTools.pyStrip e = "END:VCARD" →
      Contacts.apply_edits orig u = DavTools.joinLines (A ++ DavTools.updateLines u ++ e :: B))
    ∧ (DavTools.removeKeyed (u.map Prod.fst) (DavTools.unfoldText orig) = A ++ e :: B →
      (∀ l ∈ A, DavTools.pyStrip l ≠ Calendar.end_tag orig) →
      DavTools.pyStrip e = Calendar.end_tag orig →
      Calendar.apply_edits orig u = DavTools.joinLines (A ++ DavTools.updateLines u ++ e :: B)) := by
  constructor
  · intro hF hA he
    rw [Contacts.apply_edits, hF, DavTools.insertBeforeEnd_first_match _ _ _ _ _ hA he]
  · intro hF hA he
    rw [Calendar.apply_edits, hF, DavTools.insertBeforeEnd_first_match _ _ _ _ _ hA he]

theorem c2_amended_witness :
    Contacts.apply_edits "BEGIN:VCARD\nFN:A\nEND:VCARD" [("FN", DavTools.VValue.str "B")]
      = DavTools.joinLines (["BEGIN:VCARD"]
          ++ DavTools.updateLines [("FN", DavTools.VValue.str "B")] ++ "END:VCARD" :: []) :=
  (c2_amended_insert_before_fixed_tag "BEGIN:VCARD\nFN:A\nEND:VCARD"
      [("FN", DavTools.VValue.str "B")] ["BEGIN:VCARD"] "END:VCARD" []).1
    (by decide) (by decide) (by decide)

/-- C10: with a non-empty update set, if no remaining logical line
strips to the selected terminator tag (always `END:VCARD` in the
contacts patcher; `END:VEVENT` when the raw original contains
`BEGIN:VEVENT` and `END:VTODO` otherwise in the calendar patcher), the
output is just the remaining lines — the update lines are silently
dropped; when lines matching the tag exist, the update lines are
inserted exactly once, immediately before the first such line. -/
theorem c10_insertion_point_policy (orig : String) (u : List (String × DavTools.VValue))
    (_hu : u ≠ []) :
    ((∀ l ∈ DavTools.removeKeyed (u.map Prod.fst) (DavTools.unfoldText orig),
        DavTools.pyStrip l ≠ "END:VCARD") →
      Contacts.apply_edits orig u
        = DavTools.joinLines (DavTools.removeKeyed (u.map Prod.fst) (DavTools.unfoldText orig)))
    ∧ (∀ A e B, DavTools.removeKeyed (u.map Prod.fst) (DavTools.unfoldText orig) = A ++ e :: B →
        (∀ l ∈ A, DavTools.pyStrip l ≠ "END:VCARD") → DavTools.pyStrip e = "END:VCARD" →
        Contacts.apply_edits orig u = DavTools.joinLines (A ++ DavTools.updateLines u ++ e :: B))
    ∧ ((∀ l ∈ DavTools.removeKeyed (u.map Prod.fst) (DavTools.unfoldText orig),
        DavTools.pyStrip l ≠ Calendar.end_tag orig) →
      Calendar.apply_edits orig u
        = DavTools.joinLines (DavTools.removeKeyed (u.map Prod.fst) (DavTools.unfoldText orig)))
    ∧ (∀ A e B, DavTools.removeKeyed (u.map Prod.fst) (DavTools.unfoldText orig) = A ++ e :: B →
        (∀ l ∈ A, DavTools.pyStrip l ≠ Calendar.end_tag orig) →
        DavTools.pyStrip e = Calendar.end_tag orig →
        Calendar.apply_edits orig u = DavTools.joinLines (A ++ DavTools.updateLines u ++ e :: B)) := by
  refine ⟨fun h => ?_, fun A e B hF hA he => ?_, fun h => ?_, fun A e B hF hA he => ?_⟩
  · rw [Contacts.apply_edits, DavTools.insertBeforeEnd_no_match _ _ _ h]
  · rw [Contacts.apply_edits, hF, DavTools.insertBeforeEnd_first_match _ _ _ _ _ hA he]
  · rw [Calendar.apply_edits, DavTools.insertBeforeEnd_no_match _ _ _ h]
  · rw [Calendar.apply_edits, hF, DavTools.insertBeforeEnd_first_match _ _ _ _ _ hA he]

theorem c10_witness :
    Contacts.apply_edits "BEGIN:VCARD\nFN:A\nEND:VCAR" [("X", DavTools.VValue.str "1")]
      = DavTools.joinLines (DavTools.removeKeyed ["X"]
          (DavTools.unfoldText "BEGIN:VCARD\nFN:A\nEND:VCAR"))
    ∧ Calendar.apply_edits "BEGIN:VEVENT\nSUMMARY:s\nEND:VEVENT\nEND:VEVENT"
        [("SUMMARY", DavTools.VValue.str "t")]
      = DavTools.joinLines (["BEGIN:VEVENT"]
          ++ DavTools.updateLines [("SUMMARY", DavTools.VValue.str "t")]
          ++ "END:VEVENT" :: ["END:VEVENT"]) :=
  ⟨(c10_insertion_point_policy "BEGIN:VCARD\nFN:A\nEND:VCAR"
      [("X", DavTools.VValue.str "1")] (by decide)).1 (by decide),
   (c10_insertion_point_policy "BEGIN:VEVENT\nSUMMARY:s\nEND:VEVENT\nEND:VEVENT"
      [("SUMMARY", DavTools.VValue.str "t")] (by decide)).2.2.2
      ["BEGIN:VEVENT"] "END:VEVENT" ["END:VEVENT"] (by decide) (by decide) (by decide)⟩

/-- C7: the decoder stores the single occurrence of a field name as a
scalar, and two or more occurrences as a list whose order matches source
order — for every input text and every key, the stored value is fully
determined by the ordered list of that key's occurrences. -/
theorem c7_multivalue_accumulation (text : String) (k : String) :
    DavTools.lookupJ k (DavTools.parse_dav_data text)
      = match DavTools.occVals (DavTools.unfoldText text) k with
        | [] => none
        | [v] => some (DavTools.JVal.s v)
        | v1 :: v2 :: rest => some (DavTools.JVal.l (v1 :: v2 :: rest)) :=
  DavTools.lookupJ_parse_dav_data text k

/-- C1 (amended): the decoder derives each field name by splitting the
logical line on the first `:` and then on the first `;` only — there is
no split on `.`, so group prefixes are retained: the keys present in the
decoded mapping are exactly the derived names of the `:`-containing
logical lines. -/
theorem c1_amended_no_group_split (text : String) (k : String) :
    (DavTools.lookupJ k (DavTools.parse_dav_data text)).isSome = true
      ↔ k ∈ ((DavTools.unfoldText text).filter DavTools.hasColonB).map DavTools.deriveKey := by
  rw [← DavTools.occVals_ne_nil_iff, DavTools.lookupJ_parse_dav_data]
  rcases DavTools.occVals (DavTools.unfoldText text) k with - | ⟨v, - | ⟨v2, rest⟩⟩
  · simp
  · simp
  · simp

/-- C5 (amended): applying the same update set twice yields the same
text as applying it once, provided every unfolded logical line of the
original is nonempty, break-free and not a continuation line, and the
update set is well-formed (keys free of `:`, `;` and line breaks and
not starting with a space or tab; values free of line breaks); for the
calendar patcher the substring-based component-kind inference must
additionally be unchanged by the first application.  (Without these
conditions idempotence fails, see the counterexample.) -/
theorem c5_amended_idempotent_on_wellformed (orig : String)
    (u : List (String × DavTools.VValue))
    (hL : ∀ l ∈ DavTools.unfoldText orig, DavTools.goodLine l = true)
    (hU : DavTools.goodUpdates u = true) :
    Contacts.apply_edits (Contacts.apply_edits orig u) u = Contacts.apply_edits orig u
    ∧ (Calendar.end_tag (Calendar.apply_edits orig u) = Calendar.end_tag orig →
        Calendar.apply_edits (Calendar.apply_edits orig u) u = Calendar.apply_edits orig u) := by
  constructor
  · exact DavTools.apply_tag_idem "END:VCARD" orig u hL hU
  · intro hstable
    conv_lhs => rw [Calendar.apply_edits, hstable]
    exact DavTools.apply_tag_idem (Calendar.end_tag orig) orig u hL hU

theorem c5_amended_witness :
    Contacts.apply_edits
        (Contacts.apply_edits "BEGIN:VCARD\nFN:Alice\nEND:VCARD"
          [("FN", DavTools.VValue.str "Bob")])
        [("FN", DavTools.VValue.str "Bob")]
      = Contacts.apply_edits "BEGIN:VCARD\nFN:Alice\nEND:VCARD"
          [("FN", DavTools.VValue.str "Bob")] :=
  (c5_amended_idempotent_on_wellformed "BEGIN:VCARD\nFN:Alice\nEND:VCARD"
    [("FN", DavTools.VValue.str "Bob")] (by decide) (by decide)).1

/-- C3 (amended): the patcher performs no validation of the update set:
an update argument that is not a dict raises `AttributeError` — not
`ValidationError` — before any output is built, a dict succeeds whatever
the types of its values (non-strings are formatted with `str()`), and
the only exception the function can raise is `AttributeError`; no
partial output is produced on the error path. -/
theorem c3_amended_no_validation (orig : String) (u : DavTools.PyVal) :
    (∀ kvs, u = DavTools.PyVal.dict kvs →
      ∃ out, Contacts.apply_edits_py orig u = Except.ok out)
    ∧ ((∀ kvs, u ≠ DavTools.PyVal.dict kvs) →
      Contacts.apply_edits_py orig u = Except.error DavTools.PyErr.attributeError)
    ∧ (∀ e, Contacts.apply_edits_py orig u = Except.error e →
      e = DavTools.PyErr.attributeError) := by
  refine ⟨?_, ?_, ?_⟩
  · rintro _kvs rfl
    exact ⟨_, rfl⟩
  · intro h
    cases u with
    | dict kvs => exact absurd rfl (h kvs)
    | str s => rfl
    | int n => rfl
    | bool b => rfl
    | null => rfl
    | list xs => rfl
  · intro e he
    cases u with
    | dict kvs => exact absurd he (by simp [Contacts.apply_edits_py])
    | str s => cases he; rfl
    | int n => cases he; rfl
    | bool b => cases he; rfl
    | null => cases he; rfl
    | list xs => cases he; rfl

theorem c3_amended_witness :
    Contacts.apply_edits_py "BEGIN:VCARD\nEND:VCARD" (DavTools.PyVal.int 3)
      = Except.error DavTools.PyErr.attributeError :=
  (c3_amended_no_validation "BEGIN:VCARD\nEND:VCARD" (DavTools.PyVal.int 3)).2.1
    fun _kvs h => DavTools.PyVal.noConfusion h

namespace DavTools

theorem unfoldStep_length (acc : List String) (l : String) :
    (unfoldStep acc l).length ≤ acc.length + 1 := by
  rw [unfoldStep]
  by_cases h : isCont l
  · rw [if_pos h]
    cases hg : acc.getLast? with
    | none =>
      show acc.length ≤ acc.length + 1
      omega
    | some a =>
      show (acc.dropLast ++ [a ++ dropHead l]).length ≤ acc.length + 1
      simp only [List.length_append, List.length_dropLast, List.length_cons,
        List.length_nil]
      omega
  · rw [if_neg h]
    simp

theorem foldl_unfoldStep_length (ls : List String) :
    ∀ acc : List String, (ls.foldl unfoldStep acc).length ≤ acc.length + ls.length := by
  induction ls with
  | nil => simp
  | cons l ls ih =>
    intro acc
    rw [List.foldl_cons]
    have h1 := ih (unfoldStep acc l)
    have h2 := unfoldStep_length acc l
    simp only [List.length_cons]
    omega

end DavTools

/-- C8: unfold iterates physical lines in order: it yields the empty
sequence on empty input; its output never has more elements than there
are physical lines; a continuation line (leading space or tab) at the
very start is dropped silently; appending a continuation line merges it
— minus its first character, with no separator — into the last logical
line when one exists; and appending any other line starts a new logical
line. -/
theorem c8_unfold_iteration :
    DavTools.unfoldText "" = []
    ∧ (∀ text : String,
        (DavTools.unfoldText text).length ≤ (DavTools.physLines text).length)
    ∧ (∀ (l : String) (ls : List String), DavTools.isCont l = true →
        DavTools.unfoldLines (l :: ls) = DavTools.unfoldLines ls)
    ∧ (∀ (pre : List String) (l : String), DavTools.isCont l = true →
        DavTools.unfoldLines (pre ++ [l])
          = match (DavTools.unfoldLines pre).getLast? with
            | none => DavTools.unfoldLines pre
            | some last => (DavTools.unfoldLines pre).dropLast
                ++ [last ++ DavTools.dropHead l])
    ∧ (∀ (pre : List String) (l : String), DavTools.isCont l = false →
        DavTools.unfoldLines (pre ++ [l]) = DavTools.unfoldLines pre ++ [l]) := by
  refine ⟨rfl, ?_, ?_, ?_, ?_⟩
  · intro text
    simpa [DavTools.unfoldText, DavTools.unfoldLines] using
      DavTools.foldl_unfoldStep_length (DavTools.physLines text) []
  · intro l ls h
    rw [DavTools.unfoldLines, List.foldl_cons,
      show DavTools.unfoldStep [] l = [] from by rw [DavTools.unfoldStep, if_pos h]; rfl]
    rfl
  · intro pre l h
    rw [DavTools.unfoldLines, DavTools.unfoldLines, List.foldl_append, List.foldl_cons,
      List.foldl_nil, DavTools.unfoldStep, if_pos h]
  · intro pre l h
    rw [DavTools.unfoldLines, DavTools.unfoldLines, List.foldl_append, List.foldl_cons,
      List.foldl_nil, DavTools.unfoldStep, if_neg (by simp [h])]

theorem c8_witness :
    DavTools.unfoldLines [" a", "B:2"] = DavTools.unfoldLines ["B:2"]
    ∧ DavTools.unfoldLines (["A:x"] ++ [" y"]) = ["A:xy"] :=
  ⟨c8_unfold_iteration.2.2.1 " a" ["B:2"] (by decide),
   by
    rw [c8_unfold_iteration.2.2.2.1 ["A:x"] " y" (by decide)]
    decide⟩

namespace DavTools

theorem pyUpdateLines_toPyVal (u : List (String × VValue)) :
    pyUpdateLines (u.map fun kv => (kv.1, toPyVal kv.2)) = updateLines u := by
  induction u with
  | nil => rfl
  | cons kv u ih =>
    obtain ⟨k, v⟩ := kv
    rw [List.map_cons,
      show pyUpdateLines ((k, toPyVal v) :: (u.map fun kv => (kv.1, toPyVal kv.2)))
        = pyValueLines k (toPyVal v) ++ pyUpdateLines (u.map fun kv => (kv.1, toPyVal kv.2))
        from rfl,
      ih, updateLines_cons]
    cases v with
    | str s => rfl
    | lst vs =>
      simp only [toPyVal, pyValueLines, valueLines, List.map_map]
      rfl

end DavTools

/-- For a well-typed update set the dynamic patcher agrees with the
typed one: it succeeds and returns exactly the typed result. -/
theorem apply_edits_py_agrees (orig : String) (u : List (String × DavTools.VValue)) :
    Contacts.apply_edits_py orig
        (DavTools.PyVal.dict (u.map fun kv => (kv.1, DavTools.toPyVal kv.2)))
      = Except.ok (Contacts.apply_edits orig u) := by
  rw [show Contacts.apply_edits_py orig
        (DavTools.PyVal.dict (u.map fun kv => (kv.1, DavTools.toPyVal kv.2)))
      = Except.ok (DavTools.joinLines
          (DavTools.insertBeforeEnd "END:VCARD"
            (DavTools.pyUpdateLines (u.map fun kv => (kv.1, DavTools.toPyVal kv.2)))
            (DavTools.removeKeyed
              ((u.map fun kv => (kv.1, DavTools.toPyVal kv.2)).map Prod.fst)
              (DavTools.unfoldText orig)))) from rfl,
    DavTools.pyUpdateLines_toPyVal, Contacts.apply_edits, List.map_map]
  rfl
